import Mathlib

/-!
Shallow embedding of the grocery-ops-simulator repository
(src/supplier.py, src/grocery.py, src/main.py).

Modelling conventions:
* Python floats are modelled as exact rationals (ℚ).
* Python dicts are insertion-ordered association lists: an update of an
  existing key keeps its position, a new key is appended at the end.
  `defaultdict(int)` reads that do not insert are `agetD m k 0`.
* Randomized draws are explicit inputs.  Draws made from the run's local
  `random.Random(seed)` object come from the stream `sigma`; draws made from
  the process-global generators (`random` module functions inside
  supplier.py/grocery.py, and `numpy.random` inside
  `Grocery.sell_one_product`) come from the separate streams `gpy`/`gnp`.
  A single draw `u` models a `random()` result in `[0,1)`:
  `random.uniform a b ↦ a + (b-a)*u`, `random.choice xs ↦ xs[⌊u*|xs|⌋]`,
  `rng.randint a b ↦ a + ⌊u*(b-a+1)⌋`.
* The fuzzy discount engine (`Grocery._compute_discount`) is an external
  library computation (skfuzzy); it is a deterministic function of the two
  clamped integer inputs, so it is carried as a parameter
  `D : ℤ → ℤ → ℚ` throughout.
-/

namespace GrocerySim

/-! ### Association-list maps (Python `dict` semantics) -/

def alookup {κ α : Type} [DecidableEq κ] : List (κ × α) → κ → Option α
  | [], _ => none
  | (k', v') :: rest, k => if k' = k then some v' else alookup rest k

/-- `m[k] = v`: update in place if the key exists, append otherwise. -/
def aset {κ α : Type} [DecidableEq κ] : List (κ × α) → κ → α → List (κ × α)
  | [], k, v => [(k, v)]
  | (k', v') :: rest, k, v =>
    if k' = k then (k, v) :: rest else (k', v') :: aset rest k v

/-- `m.get(k, d)`. -/
def agetD {κ α : Type} [DecidableEq κ] (m : List (κ × α)) (k : κ) (d : α) : α :=
  (alookup m k).getD d

theorem alookup_aset_self {κ α : Type} [DecidableEq κ]
    (m : List (κ × α)) (k : κ) (v : α) : alookup (aset m k v) k = some v := by
  induction m with
  | nil => simp [aset, alookup]
  | cons hd tl ih =>
    obtain ⟨k', v'⟩ := hd
    by_cases h : k' = k
    · simp [aset, h, alookup]
    · simp [aset, h, alookup, ih]

theorem alookup_aset_ne {κ α : Type} [DecidableEq κ]
    (m : List (κ × α)) (k k' : κ) (v : α) (h : k' ≠ k) :
    alookup (aset m k v) k' = alookup m k' := by
  induction m with
  | nil => simp [aset, alookup, Ne.symm h]
  | cons hd tl ih =>
    obtain ⟨k₀, v₀⟩ := hd
    by_cases h₀ : k₀ = k
    · subst h₀
      simp [aset, alookup, Ne.symm h]
    · by_cases h₁ : k₀ = k'
      · subst h₁
        simp [aset, alookup, h₀]
      · simp [aset, alookup, h₀, h₁, ih]

theorem mem_aset {κ α : Type} [DecidableEq κ]
    {m : List (κ × α)} {k : κ} {v : α} {pq : κ × α}
    (h : pq ∈ aset m k v) : pq ∈ m ∨ pq = (k, v) := by
  induction m with
  | nil => simp [aset] at h; simp [h]
  | cons hd tl ih =>
    obtain ⟨k', v'⟩ := hd
    by_cases h' : k' = k
    · simp [aset, h'] at h
      rcases h with h | h
      · right; simp [h]
      · left; simp [h]
    · simp [aset, h'] at h
      rcases h with h | h
      · left; simp [h]
      · rcases ih h with h₂ | h₂
        · left; simp [h₂]
        · right; exact h₂

theorem mem_of_alookup {κ α : Type} [DecidableEq κ]
    {m : List (κ × α)} {k : κ} {v : α}
    (h : alookup m k = some v) : (k, v) ∈ m := by
  induction m with
  | nil => simp [alookup] at h
  | cons hd tl ih =>
    obtain ⟨k', v'⟩ := hd
    by_cases h' : k' = k
    · subst h'
      simp [alookup] at h
      simp [h]
    · simp [alookup, h'] at h
      simp [ih h]

theorem alookup_eq_of_mem_nodup {κ α : Type} [DecidableEq κ]
    {m : List (κ × α)} {k : κ} {v : α}
    (hnd : (m.map Prod.fst).Nodup) (h : (k, v) ∈ m) : alookup m k = some v := by
  induction m with
  | nil => simp at h
  | cons hd tl ih =>
    obtain ⟨k', v'⟩ := hd
    have hnd' := List.nodup_cons.mp (show (k' :: tl.map Prod.fst).Nodup from hnd)
    rcases List.mem_cons.mp h with heq | hmem
    · have hk : k = k' := congrArg Prod.fst heq
      have hv : v = v' := congrArg Prod.snd heq
      subst hk; subst hv
      simp [alookup]
    · have hne : k' ≠ k := by
        intro heq
        subst heq
        exact hnd'.1 (List.mem_map.mpr ⟨(k', v), hmem, rfl⟩)
      simpa [alookup, hne] using ih hnd'.2 hmem

theorem mem_keys_aset {κ α : Type} [DecidableEq κ]
    {m : List (κ × α)} {k q : κ} {v : α}
    (h : q ∈ (aset m k v).map Prod.fst) : q ∈ m.map Prod.fst ∨ q = k := by
  rcases List.mem_map.mp h with ⟨⟨k₁, v₁⟩, hmem, hq⟩
  rcases mem_aset hmem with h' | h'
  · left; exact List.mem_map.mpr ⟨(k₁, v₁), h', hq⟩
  · right; rw [← hq]; simpa using congrArg Prod.fst h'

theorem nodup_keys_aset {κ α : Type} [DecidableEq κ]
    {m : List (κ × α)} {k : κ} {v : α}
    (hnd : (m.map Prod.fst).Nodup) : ((aset m k v).map Prod.fst).Nodup := by
  induction m with
  | nil => simp [aset]
  | cons hd tl ih =>
    obtain ⟨k', v'⟩ := hd
    have hnd' := List.nodup_cons.mp (show (k' :: tl.map Prod.fst).Nodup from hnd)
    by_cases h' : k' = k
    · subst h'
      have heq : aset ((k', v') :: tl) k' v = (k', v) :: tl := by simp [aset]
      rw [heq]
      simpa using List.nodup_cons.mpr hnd'
    · have htl := ih hnd'.2
      have hk' : k' ∉ (aset tl k v).map Prod.fst := by
        intro hmem
        rcases mem_keys_aset hmem with hmem' | hmem'
        · exact hnd'.1 hmem'
        · exact h' hmem'
      have heq : aset ((k', v') :: tl) k v = (k', v') :: aset tl k v := by
        simp [aset, h']
      rw [heq]
      simpa using List.nodup_cons.mpr ⟨hk', htl⟩

/-! ### Evaluable rational arithmetic

The model's float arithmetic is on ℚ, but spelled through the thin
wrappers below.  Batteries marks `Rat.add/sub/mul/inv` `@[irreducible]`,
which blocks kernel evaluation (`decide`) of concrete runs; each wrapper
is proven equal to the corresponding standard operation, so the symbolic
theorems below reason with ordinary `+ - * / < max`. Concrete rational
literals are written `mkRat n d` for the same reason. -/

def qadd (a b : ℚ) : ℚ := mkRat (a.num * b.den + b.num * a.den) (a.den * b.den)

def qsub (a b : ℚ) : ℚ := mkRat (a.num * b.den - b.num * a.den) (a.den * b.den)

def qmul (a b : ℚ) : ℚ := mkRat (a.num * b.num) (a.den * b.den)

def qdiv (a b : ℚ) : ℚ :=
  if b.num < 0 then mkRat (-(a.num * b.den)) (a.den * b.num.natAbs)
  else mkRat (a.num * b.den) (a.den * b.num.natAbs)

def qlt (a b : ℚ) : Bool := decide (a.num * b.den < b.num * a.den)

def qmax (a b : ℚ) : ℚ := if qlt a b then b else a

def qsum : List ℚ → ℚ
  | [] => 0
  | x :: r => qadd x (qsum r)

/-- Python's `round` to the nearest integer (half away from zero vs half
to even does not matter for any claim; we use `⌊x + 1/2⌋`, matching
Mathlib's `round`). -/
def qround (x : ℚ) : ℤ := Rat.floor (qadd x (mkRat 1 2))

theorem den_cast_nz (a : ℚ) : ((a.den : ℚ)) ≠ 0 := by exact_mod_cast a.den_nz

theorem qadd_eq (a b : ℚ) : qadd a b = a + b := by
  rw [qadd, Rat.mkRat_eq_div]
  push_cast
  conv_rhs => rw [← Rat.num_div_den a, ← Rat.num_div_den b]
  rw [div_add_div _ _ (den_cast_nz a) (den_cast_nz b)]
  ring_nf

theorem qsub_eq (a b : ℚ) : qsub a b = a - b := by
  rw [qsub, Rat.mkRat_eq_div]
  push_cast
  conv_rhs => rw [← Rat.num_div_den a, ← Rat.num_div_den b]
  rw [div_sub_div _ _ (den_cast_nz a) (den_cast_nz b)]
  ring_nf

theorem qmul_eq (a b : ℚ) : qmul a b = a * b := by
  rw [qmul, Rat.mkRat_eq_div]
  push_cast
  conv_rhs => rw [← Rat.num_div_den a, ← Rat.num_div_den b]
  rw [div_mul_div_comm]

theorem qdiv_eq (a b : ℚ) : qdiv a b = a / b := by
  rw [qdiv]
  rcases lt_trichotomy b.num 0 with hb | hb | hb
  · rw [if_pos hb, Rat.mkRat_eq_div]
    push_cast [Int.cast_natAbs]
    rw [abs_of_neg (show ((b.num : ℚ)) < 0 by exact_mod_cast hb)]
    conv_rhs => rw [← Rat.num_div_den a, ← Rat.num_div_den b]
    have hbn : ((b.num : ℚ)) ≠ 0 := by
      intro h
      exact absurd (by exact_mod_cast h) (ne_of_lt hb)
    field_simp
  · rw [if_neg (by omega), hb]
    have hb0 : b = 0 := by rwa [Rat.num_eq_zero] at hb
    simp [hb0, Rat.mkRat_eq_div]
  · rw [if_neg (by omega), Rat.mkRat_eq_div]
    push_cast [Int.cast_natAbs]
    rw [abs_of_pos (show (0 : ℚ) < (b.num : ℚ) by exact_mod_cast hb)]
    conv_rhs => rw [← Rat.num_div_den a, ← Rat.num_div_den b]
    have hbn : ((b.num : ℚ)) ≠ 0 := by
      intro h
      exact absurd (by exact_mod_cast h) (ne_of_gt hb)
    field_simp

theorem qlt_iff (a b : ℚ) : qlt a b = true ↔ a < b := by
  rw [qlt, decide_eq_true_iff]
  constructor
  · intro h
    rw [← Rat.num_div_den a, ← Rat.num_div_den b,
      div_lt_div_iff₀ (by positivity) (by positivity)]
    exact_mod_cast h
  · intro h
    have h2 := (div_lt_div_iff₀ (a := (a.num : ℚ)) (b := (a.den : ℚ))
      (c := (b.num : ℚ)) (d := (b.den : ℚ)) (by positivity) (by positivity))
    rw [Rat.num_div_den, Rat.num_div_den] at h2
    exact_mod_cast h2.mp h

theorem qlt_eq (a b : ℚ) : qlt a b = decide (a < b) := by
  by_cases h : a < b
  · rw [(qlt_iff a b).mpr h]
    simp [h]
  · have hf : qlt a b = false := by
      rcases Bool.eq_false_or_eq_true (qlt a b) with hh | hh
      · exact absurd ((qlt_iff a b).mp hh) h
      · exact hh
    rw [hf]
    simp [h]

theorem qmax_eq (a b : ℚ) : qmax a b = max a b := by
  rw [qmax]
  rcases lt_or_ge a b with h | h
  · rw [if_pos ((qlt_iff a b).mpr h), max_eq_right h.le]
  · rw [if_neg (by simp [qlt_eq]; exact h), max_eq_left h]

theorem qsum_eq (l : List ℚ) : qsum l = l.sum := by
  induction l with
  | nil => simp [qsum]
  | cons x r ih => simp [qsum, qadd_eq, ih]

theorem ratFloor_eq (q : ℚ) : Rat.floor q = ⌊q⌋ := by
  rw [Rat.floor_def, Rat.floor]
  split
  · rename_i h
    rw [h]
    simp
  · rfl

theorem qround_eq (x : ℚ) : qround x = round x := by
  rw [qround, ratFloor_eq, qadd_eq, round_eq]
  norm_num [Rat.mkRat_eq_div]

theorem mkRat_lit (n : ℤ) (d : ℕ) : mkRat n d = (n : ℚ) / d := by
  rw [Rat.mkRat_eq_div]

/-! ### Random draw streams

A stream is a list of `random()` outputs in `[0,1)`, consumed head first.
An exhausted stream yields `0` (the concrete runs below never exhaust their
streams; the reachability theorems only assume each value is nonnegative). -/

def draw : List ℚ → ℚ × List ℚ
  | [] => (0, [])
  | u :: r => (u, r)

/-- `random.uniform(a, b)` (resp. `rng.uniform(a, b)`). -/
def uniformD (a b : ℚ) (γ : List ℚ) : ℚ × List ℚ :=
  let p := draw γ
  (qadd a (qmul (qsub b a) p.1), p.2)

/-- `rng.randint(a, b)`: an integer in `[a, b]`, both ends included. -/
def randintD (a b : Nat) (γ : List ℚ) : Nat × List ℚ :=
  let p := draw γ
  (a + (Rat.floor (qmul p.1 (mkRat ((b : ℤ) + 1 - a) 1))).toNat, p.2)

/-- `random.choice(xs)`. -/
def chooseD (xs : List String) (γ : List ℚ) : String × List ℚ :=
  let p := draw γ
  (xs.getD (Rat.floor (qmul p.1 (mkRat (xs.length : ℤ) 1))).toNat "", p.2)

/-! ### Supplier (src/supplier.py) -/

structure Supplier where
  id : Nat
  /-- Inventory: list of product names, appended at the end. -/
  products : List String
  /-- Supplier unit COST (COGS) per product. -/
  prices : List (String × ℚ)
deriving DecidableEq

def supplier0 : Supplier := { id := 0, products := [], prices := [] }

def productTypes : List String :=
  ["proteins", "carbohydrates", "fruits", "vegetables", "sweets"]

/-- `Supplier.add_products(quantity)` with an explicit quantity.
Each unit draws a random product type (`random.choice`) and then a fresh
unit cost `random.uniform(1.0, 5.0)`; `_maybe_update_cost` always keeps
the latest draw, so the price table is simply overwritten. -/
def addProducts (s : Supplier) : Nat → List ℚ → Supplier × List ℚ
  | 0, γ => (s, γ)
  | Nat.succ n, γ =>
    let pc := chooseD productTypes γ
    let cc := uniformD (mkRat 1 1) (mkRat 5 1) pc.2
    addProducts
      { s with products := s.products ++ [pc.1], prices := aset s.prices pc.1 cc.1 }
      n cc.2

/-- `Supplier.supply_products(quantity)`.  If the inventory is short, the
`ValueError` is caught internally and an empty list is returned with the
inventory untouched (the `Bool` component records that this
InsufficientInventory condition fired).  Otherwise `quantity` units are
popped from the end of the list. -/
def supplyProducts (s : Supplier) (q : Nat) : List String × Supplier × Bool :=
  if s.products.length < q then ([], s, true)
  else ((s.products.drop (s.products.length - q)).reverse,
        { s with products := s.products.take (s.products.length - q) }, false)

/-- `Supplier.get_price(product)`: the recorded unit cost, or 0 if unknown. -/
def getPrice (s : Supplier) (p : String) : ℚ := agetD s.prices p 0

/-! ### Grocery (src/grocery.py) -/

structure Grocery where
  /-- `self.stock : defaultdict(int)`. -/
  stock : List (String × ℤ)
  /-- `self.prices`. -/
  prices : List (String × ℚ)
  /-- `self.costs`. -/
  costs : List (String × ℚ)
  /-- `self.sales_count : defaultdict(int)`. -/
  salesCount : List (String × ℤ)
  /-- `self.demand_weights`, fixed at construction. -/
  demandWeights : List (String × ℚ)
deriving DecidableEq

def defaultWeights : List (String × ℚ) :=
  [("proteins", mkRat 3 10), ("carbohydrates", mkRat 1 4), ("fruits", mkRat 1 5),
   ("vegetables", mkRat 3 20), ("sweets", mkRat 1 10)]

/-- A freshly constructed `Grocery` (checkout capacity is tracked by the
scheduler state, not here). -/
def grocery0 : Grocery :=
  { stock := [], prices := [], costs := [], salesCount := [],
    demandWeights := defaultWeights }

/-- `Grocery.calculate_delivery_cost(distance_km)`. -/
def calculateDeliveryCost (d : ℚ) : ℚ :=
  if qlt d (mkRat 10 1) then mkRat 5 1
  else if qlt d (mkRat 20 1) then mkRat 10 1
  else if qlt d (mkRat 30 1) then mkRat 15 1
  else mkRat 20 1

/-- One iteration of the loop body of `Grocery.add_stock`: the unit `p`
was received at supplier cost `c`; increments stock, records the cost on
first sight, and on first sight of a price draws the initial markup
`random.uniform(1.2, 1.5)` from the global stream. -/
def addStockItem (g : Grocery) (p : String) (c : ℚ) (γ : List ℚ) :
    Grocery × List ℚ :=
  let stock' := aset g.stock p (agetD g.stock p 0 + 1)
  let costs' := match alookup g.costs p with
    | none => aset g.costs p c
    | some _ => g.costs
  match alookup g.prices p with
  | some _ => ({ g with stock := stock', costs := costs' }, γ)
  | none =>
    let m := uniformD (mkRat 6 5) (mkRat 3 2) γ
    ({ g with stock := stock', costs := costs',
              prices := aset g.prices p (qmul (agetD costs' p 0) m.1) }, m.2)

/-- The loop of `Grocery.add_stock` over the received units (each unit is
paired with `supplier.get_price` for it, which `add_stock` reads). -/
def addStockList (g : Grocery) : List (String × ℚ) → List ℚ → Grocery × List ℚ
  | [], γ => (g, γ)
  | (p, c) :: rest, γ =>
    let r := addStockItem g p c γ
    addStockList r.1 rest r.2

/-- `Grocery.add_stock(supplier, quantity)`: asks the supplier for
`quantity` units (possibly zero on InsufficientInventory) and folds them
into the store. -/
def addStock (g : Grocery) (s : Supplier) (q : Nat) (γ : List ℚ) :
    Grocery × Supplier × List ℚ :=
  let sp := supplyProducts s q
  let r := addStockList g (sp.1.map (fun p => (p, getPrice sp.2.1 p))) γ
  (r.1, sp.2.1, r.2)

/-- Input clamping of `Grocery._compute_discount`: both fuzzy inputs are
capped to `[0, 100]`. -/
def clampI (x : ℤ) : ℤ := max 0 (min 100 x)

/-- The price floor enforced by `Grocery.apply_discounts`:
`self.costs.get(product, 0.0) * 1.05`. -/
def priceFloor (costs : List (String × ℚ)) (p : String) : ℚ :=
  qmul (agetD costs p 0) (mkRat 21 20)

/-- The loop of `Grocery.apply_discounts` over `self.stock.items()`;
only `self.prices` is assigned in the loop body. -/
def applyDiscountsAux (D : ℤ → ℤ → ℚ) (costs : List (String × ℚ))
    (sales : List (String × ℤ)) :
    List (String × ℤ) → List (String × ℚ) → List (String × ℚ)
  | [], prices => prices
  | (p, su) :: rest, prices =>
    if su ≤ 0 ∨ alookup prices p = none then
      applyDiscountsAux D costs sales rest prices
    else
      let d := D (clampI su) (clampI (agetD sales p 0))
      let newPrice := qmul (agetD prices p 0) (qsub 1 (qdiv d (mkRat 100 1)))
      applyDiscountsAux D costs sales rest
        (aset prices p (qmax newPrice (priceFloor costs p)))

/-- `Grocery.apply_discounts()` with discount engine `D`. -/
def applyDiscounts (D : ℤ → ℤ → ℚ) (g : Grocery) : Grocery :=
  { g with prices := applyDiscountsAux D g.costs g.salesCount g.stock g.prices }

/-- Products with positive stock, in dict iteration order. -/
def availOf (g : Grocery) : List String :=
  (g.stock.filter (fun pq => decide (0 < pq.2))).map Prod.fst

/-- The weight vector `np.array([...])` built by `sell_one_product`,
including the all-ones fallback when the weights sum to zero. -/
def sellWeightsOf (g : Grocery) (avail : List String) : List ℚ :=
  let ws := avail.map (fun p => agetD g.demandWeights p (mkRat 1 100))
  if qsum ws = 0 then List.replicate avail.length 1 else ws

/-- Inverse-CDF selection of `np.random.choice(avail, p = ws / ws.sum)`
on a uniform draw `u ∈ [0,1)`, presented unnormalized with target
`t = u * ws.sum`: the index returned is the number of partial sums
`≤ t` (numpy's `searchsorted(side=right)` on the cumulative sums). -/
def pickIdx : List ℚ → ℚ → Nat
  | [], _ => 0
  | w :: ws, t => if qlt t w then 0 else pickIdx ws (qsub t w) + 1

/-- `Grocery.sell_one_product()` with the numpy draw `u` explicit.
The `none` fallthrough on an out-of-range index is unreachable for
`u ∈ [0,1)` with nonnegative weights (numpy always returns an element). -/
def sellOneProduct (g : Grocery) (u : ℚ) : Option String × Grocery :=
  if availOf g = [] then (none, g)
  else
    match (availOf g)[pickIdx (sellWeightsOf g (availOf g))
        (qmul u (qsum (sellWeightsOf g (availOf g))))]? with
    | none => (none, g)
    | some p =>
      (some p,
       { g with stock := aset g.stock p (agetD g.stock p 0 - 1),
                salesCount := aset g.salesCount p (agetD g.salesCount p 0 + 1) })

/-- `sell_one_product` as run by the simulation: `np.random.choice` (and
hence a global numpy draw) happens only when some product is available. -/
def sellOneProductG (g : Grocery) (γ : List ℚ) :
    Option String × Grocery × List ℚ :=
  if availOf g = [] then (none, g, γ)
  else
    let p := draw γ
    let r := sellOneProduct g p.1
    (r.1, r.2, p.2)

/-- `Grocery.reset_sales_counters()`. -/
def resetSales (g : Grocery) : Grocery := { g with salesCount := [] }

/-! ### Ledger (src/main.py, `Simulation.run_day` / `run_simulation`) -/

/-- Python's `round(x, 2)`, modelled as exact decimal rounding. -/
def round2 (x : ℚ) : ℚ := mkRat (qround (qmul (mkRat 100 1) x)) 100

inductive DayLabel where
  | day (n : Nat)
  | total
deriving DecidableEq

/-- One row of `self.daily_balances`. -/
structure Entry where
  label : DayLabel
  revenue : ℚ
  cogs : ℚ
  deliveryCost : ℚ
  profit : ℚ
  productsSold : Nat
deriving DecidableEq

/-- The running totals of `_simulate_customers_for_day`. -/
structure Accounts where
  revenue : ℚ
  cogs : ℚ
  deliveryCost : ℚ
  sold : Nat
deriving DecidableEq

def acc0 : Accounts := { revenue := 0, cogs := 0, deliveryCost := 0, sold := 0 }

/-- The dict appended by `run_day`:
`profit = revenue - (cogs + delivery_cost)`, every monetary field stored
rounded to 2 decimals. -/
def mkDailyEntry (k : Nat) (a : Accounts) : Entry :=
  { label := DayLabel.day k,
    revenue := round2 a.revenue,
    cogs := round2 a.cogs,
    deliveryCost := round2 a.deliveryCost,
    profit := round2 (qsub a.revenue (qadd a.cogs a.deliveryCost)),
    productsSold := a.sold }

/-- The terminal "Total" row appended by `run_simulation`. -/
def totalRow (l : List Entry) : Entry :=
  { label := DayLabel.total,
    revenue := round2 (qsum (l.map Entry.revenue)),
    cogs := round2 (qsum (l.map Entry.cogs)),
    deliveryCost := round2 (qsum (l.map Entry.deliveryCost)),
    profit := round2 (qsum (l.map Entry.profit)),
    productsSold := (l.map Entry.productsSold).sum }

/-! ### Discrete-event scheduler (simpy semantics as used by src/main.py)

`run_simulation` creates one `run_day` process per day (all scheduled at
time 0 before `env.run()`), and each `run_day` spawns one customer process.
Events carry `(time, priority, insertion sequence)` and are processed in
lexicographic order; process initialization is URGENT (priority 0), all
other events are NORMAL (priority 1) — exactly simpy's rule.  The cashier
`simpy.Resource` is a counting FIFO semaphore.  One simplification: in
simpy a `release` is itself a small event that passes the freed slot to
the head of the wait queue at the same timestamp; here the hand-off is
immediate (the runs analysed below never fill the 5 cashier slots, so no
behavior differs). -/

structure Event where
  time : ℚ
  prio : Nat
  seq : Nat
  pid : Nat
deriving DecidableEq

/-- Strict event order: earlier time, then lower priority value, then
insertion order. -/
def eventLt (a b : Event) : Bool :=
  if qlt a.time b.time then true
  else if qlt b.time a.time then false
  else if a.prio < b.prio then true
  else if b.prio < a.prio then false
  else decide (a.seq < b.seq)

def minEvent (e : Event) (q : List Event) : Event :=
  q.foldl (fun m x => if eventLt x m then x else m) e

def popMin : List Event → Option (Event × List Event)
  | [] => none
  | e :: rest =>
    let m := minEvent e rest
    some (m, (e :: rest).erase m)

/-- Saved continuation of a suspended process.
`dayInit/dayWait/dayAfterCust/dayAfterTimeout` are the suspension points of
`Simulation.run_day`; `custInit/custGranted/custAfterService` are those of
`Simulation._simulate_customers_for_day` (with `m` customers still to
serve, current one included, and the running `Accounts`). -/
inductive PCont where
  | dayInit (k : Nat)
  | dayWait (k : Nat)
  | dayAfterCust (k : Nat) (acc : Accounts)
  | dayAfterTimeout (k : Nat)
  | custInit (k : Nat)
  | custGranted (k : Nat) (m : Nat) (acc : Accounts)
  | custAfterService (k : Nat) (m : Nat) (acc : Accounts)
  | done
deriving DecidableEq

/-- Observable phases, logged in execution order. -/
inductive Obs where
  | restock (day : Nat)
  | discount (day : Nat)
  | sale (day : Nat) (product : Option String)
  | append (day : Nat)
  | reset (day : Nat)
deriving DecidableEq

structure Sim where
  days : Nat
  now : ℚ
  queue : List Event
  seq : Nat
  procs : List (Nat × PCont)
  grocery : Grocery
  suppliers : List Supplier
  /-- Free cashier slots (`simpy.Resource` capacity not in use). -/
  free : Nat
  /-- FIFO queue of processes waiting for a cashier slot. -/
  waitq : List Nat
  ledger : List Entry
  /-- Stream of the seeded `random.Random(seed)` object. -/
  sigma : List ℚ
  /-- Stream of the global `random` module (never re-seeded by the code). -/
  gpy : List ℚ
  /-- Stream of the global `numpy.random` generator (never re-seeded). -/
  gnp : List ℚ
  trace : List Obs
deriving DecidableEq

def pushEvent (s : Sim) (t : ℚ) (prio pid : Nat) : Sim :=
  { s with queue := s.queue ++ [{ time := t, prio := prio, seq := s.seq, pid := pid }],
           seq := s.seq + 1 }

def setProc (s : Sim) (pid : Nat) (c : PCont) : Sim :=
  { s with procs := aset s.procs pid c }

/-- Pid of day `k`'s customer process (day `k` itself has pid `k`). -/
def custPid (s : Sim) (k : Nat) : Nat := s.days + k

/-- `self.grocery.cashiers.request()` + `yield req`: grab a free slot (the
grant is an event at the current time) or join the FIFO wait queue. -/
def requestSlot (s : Sim) (pid : Nat) (cont : PCont) : Sim :=
  let s1 := setProc s pid cont
  if 0 < s1.free then pushEvent { s1 with free := s1.free - 1 } s1.now 1 pid
  else { s1 with waitq := s1.waitq ++ [pid] }

/-- Leaving the `with ... request()` block: pass the slot to the first
waiter or free it. -/
def releaseSlot (s : Sim) : Sim :=
  match s.waitq with
  | [] => { s with free := s.free + 1 }
  | p :: rest => pushEvent { s with waitq := rest } s.now 1 p

/-- `_restock_all_suppliers(units_per_supplier)`: every supplier produces
`units` new units, then the store buys `max 0 (units // 2)` of them. -/
def restockAll (g : Grocery) (sups : List Supplier) (units : Nat)
    (γ : List ℚ) : Grocery × List Supplier × List ℚ :=
  match sups with
  | [] => (g, [], γ)
  | s :: rest =>
    let r1 := addProducts s units γ
    let r2 := addStock g r1.1 (max 0 (units / 2)) r1.2
    let r3 := restockAll r2.1 rest units r2.2.2
    (r3.1, r2.2.1 :: r3.2.1, r3.2.2)

/-- The head of the customer loop: `m` customers left to serve.  When all
are done the parent `run_day` is resumed with the accumulated totals
(the child process's completion event, NORMAL priority, current time). -/
def custLoop (s : Sim) (k m : Nat) (acc : Accounts) : Sim :=
  match m with
  | 0 =>
    let s1 := setProc s (custPid s k) PCont.done
    let s2 := setProc s1 k (PCont.dayAfterCust k acc)
    pushEvent s2 s2.now 1 k
  | Nat.succ _ => requestSlot s (custPid s k) (PCont.custGranted k m acc)

/-- The post-service section of one customer: `sell_one_product` (global
numpy draw), then on a sale the revenue/COGS accrual and the delivery fee
for a seeded uniform distance in `[1, 35]` km. -/
def doSale (s : Sim) (k : Nat) (acc : Accounts) : Sim × Accounts :=
  let r := sellOneProductG s.grocery s.gnp
  let s1 := { s with grocery := r.2.1, gnp := r.2.2,
                     trace := s.trace ++ [Obs.sale k r.1] }
  match r.1 with
  | none => (s1, acc)
  | some p =>
    let price := agetD r.2.1.prices p 0
    let cost := agetD r.2.1.costs p 0
    let dd := uniformD (mkRat 1 1) (mkRat 35 1) s1.sigma
    ({ s1 with sigma := dd.2 },
     { revenue := qadd acc.revenue price, cogs := qadd acc.cogs cost,
       deliveryCost := qadd acc.deliveryCost (calculateDeliveryCost dd.1),
       sold := acc.sold + 1 })

/-- Resume the process targeted by event `e` and run it to its next
suspension point. -/
def resume (D : ℤ → ℤ → ℚ) (s : Sim) (e : Event) : Sim :=
  match alookup s.procs e.pid with
  | none => s
  | some c =>
    match c with
    | PCont.dayInit k =>
      let r := restockAll s.grocery s.suppliers 10 s.gpy
      let g2 := applyDiscounts D r.1
      let s1 := { s with grocery := g2, suppliers := r.2.1, gpy := r.2.2,
                         trace := s.trace ++ [Obs.restock k, Obs.discount k] }
      let s2 := setProc s1 k (PCont.dayWait k)
      let s3 := setProc s2 (custPid s2 k) (PCont.custInit k)
      pushEvent s3 s3.now 0 (custPid s3 k)
    | PCont.custInit k =>
      let r := randintD 8 20 s.sigma
      custLoop { s with sigma := r.2 } k r.1 acc0
    | PCont.custGranted k m acc =>
      let r := uniformD (mkRat 1 2) (mkRat 2 1) s.sigma
      pushEvent
        (setProc { s with sigma := r.2 } (custPid s k)
          (PCont.custAfterService k m acc))
        (qadd s.now r.1) 1 (custPid s k)
    | PCont.custAfterService k m acc =>
      let r := doSale s k acc
      let s2 := releaseSlot r.1
      custLoop s2 k (m - 1) r.2
    | PCont.dayAfterCust k acc =>
      let s1 := { s with ledger := s.ledger ++ [mkDailyEntry k acc],
                         trace := s.trace ++ [Obs.append k] }
      pushEvent (setProc s1 k (PCont.dayAfterTimeout k)) (qadd s1.now (mkRat 1 1)) 1 k
    | PCont.dayAfterTimeout k =>
      let s1 := { s with grocery := resetSales s.grocery,
                         trace := s.trace ++ [Obs.reset k] }
      setProc s1 k PCont.done
    | PCont.dayWait _ => s
    | PCont.done => s

/-- `env.run()`: process events in order until none remain (fuel-bounded). -/
def runLoop (D : ℤ → ℤ → ℚ) : Nat → Sim → Sim
  | 0, s => s
  | Nat.succ fuel, s =>
    match popMin s.queue with
    | none => s
    | some er => runLoop D fuel (resume D { s with queue := er.2, now := er.1.time } er.1)

/-- The state before `env.run()`: one `run_day` process per day, all of
their initialization events scheduled at time 0 in day order. -/
def initSim (days numCashiers : Nat) (sups : List Supplier)
    (σ γpy γnp : List ℚ) : Sim :=
  { days := days, now := 0,
    queue := (List.range days).map
      (fun i => { time := 0, prio := 0, seq := i, pid := i + 1 }),
    seq := days,
    procs := (List.range days).map (fun i => (i + 1, PCont.dayInit (i + 1))),
    grocery := grocery0, suppliers := sups,
    free := numCashiers, waitq := [], ledger := [],
    sigma := σ, gpy := γpy, gnp := γnp, trace := [] }

/-- `Simulation.run_simulation(seed)`: `σ` stands for the output stream of
the freshly seeded `random.Random(seed)`; `γpy`/`γnp` are the states of the
two process-global generators, which the method does NOT seed.  After the
event loop drains, the terminal Total row is appended. -/
def runSimulation (D : ℤ → ℤ → ℚ) (days numCashiers : Nat)
    (sups : List Supplier) (σ γpy γnp : List ℚ) (fuel : Nat) : Sim :=
  let s := runLoop D fuel (initSim days numCashiers sups σ γpy γnp)
  { s with ledger := s.ledger ++ [totalRow s.ledger] }

/-! ### Helper lemmas -/

theorem mkRat_den_one (n : ℤ) : mkRat n 1 = (n : ℚ) := by
  rw [mkRat_lit]
  norm_num

theorem round2_eq (x : ℚ) : round2 x = ((round (100 * x) : ℤ) : ℚ) / 100 := by
  rw [round2, mkRat_lit, qround_eq, qmul_eq, mkRat_den_one]
  norm_num

theorem round_le_add_half (x : ℚ) : ((round x : ℤ) : ℚ) ≤ x + 1/2 := by
  rw [round_eq]
  exact_mod_cast Int.floor_le (x + 1/2)

theorem lt_round_add_half (x : ℚ) : x - 1/2 < ((round x : ℤ) : ℚ) := by
  rw [round_eq]
  have h := Int.sub_one_lt_floor (x + 1/2)
  have heq : x + 1/2 - 1 = x - 1/2 := by ring
  rw [heq] at h
  exact_mod_cast h

/-- If `q` has no price, `apply_discounts` never creates one. -/
theorem adAux_none (D : ℤ → ℤ → ℚ) (costs : List (String × ℚ))
    (sales : List (String × ℤ)) :
    ∀ (items : List (String × ℤ)) (prices : List (String × ℚ)) (q : String),
      alookup prices q = none →
      alookup (applyDiscountsAux D costs sales items prices) q = none := by
  intro items
  induction items with
  | nil =>
    intro prices q h
    simpa [applyDiscountsAux] using h
  | cons hd rest ih =>
    intro prices q h
    obtain ⟨p, su⟩ := hd
    by_cases hc : su ≤ 0 ∨ alookup prices p = none
    · simp only [applyDiscountsAux]
      rw [if_pos hc]
      exact ih prices q h
    · simp only [applyDiscountsAux]
      rw [if_neg hc]
      apply ih
      have hpq : q ≠ p := by
        intro he
        subst he
        push_neg at hc
        exact hc.2 h
      rw [alookup_aset_ne _ _ _ _ hpq]
      exact h

/-- A priced product keeps a price; any update leaves it at or above the
floor, otherwise unchanged. -/
theorem adAux_some (D : ℤ → ℤ → ℚ) (costs : List (String × ℚ))
    (sales : List (String × ℤ)) :
    ∀ (items : List (String × ℤ)) (prices : List (String × ℚ)) (q : String)
      (v : ℚ), alookup prices q = some v →
      ∃ v', alookup (applyDiscountsAux D costs sales items prices) q = some v' ∧
        (v' = v ∨ priceFloor costs q ≤ v') := by
  intro items
  induction items with
  | nil =>
    intro prices q v h
    exact ⟨v, by simpa [applyDiscountsAux] using h, Or.inl rfl⟩
  | cons hd rest ih =>
    intro prices q v h
    obtain ⟨p, su⟩ := hd
    by_cases hc : su ≤ 0 ∨ alookup prices p = none
    · simp only [applyDiscountsAux]
      rw [if_pos hc]
      exact ih prices q v h
    · simp only [applyDiscountsAux]
      rw [if_neg hc]
      by_cases hpq : p = q
      · subst hpq
        obtain ⟨v', hv', hor⟩ := ih
          (aset prices p (qmax (qmul (agetD prices p 0)
            (qsub 1 (qdiv (D (clampI su) (clampI (agetD sales p 0))) (mkRat 100 1))))
            (priceFloor costs p))) p _ (alookup_aset_self _ _ _)
        refine ⟨v', hv', Or.inr ?_⟩
        rcases hor with h1 | h1
        · rw [h1, qmax_eq]
          exact le_max_right _ _
        · exact h1
      · obtain ⟨v', hv', hor⟩ := ih
          (aset prices p (qmax (qmul (agetD prices p 0)
            (qsub 1 (qdiv (D (clampI su) (clampI (agetD sales p 0))) (mkRat 100 1))))
            (priceFloor costs p))) q v
          (by rw [alookup_aset_ne _ _ _ _ (fun he => hpq he.symm)]; exact h)
        exact ⟨v', hv', hor⟩

/-- Once a price sits exactly at its (nonnegative) floor, a further
`apply_discounts` pass with a nonnegative discount leaves it unchanged. -/
theorem adAux_floor_fix (D : ℤ → ℤ → ℚ) (costs : List (String × ℚ))
    (sales : List (String × ℤ)) (hD : ∀ a b, 0 ≤ D a b) :
    ∀ (items : List (String × ℤ)) (prices : List (String × ℚ)) (q : String),
      0 ≤ priceFloor costs q →
      alookup prices q = some (priceFloor costs q) →
      alookup (applyDiscountsAux D costs sales items prices) q =
        some (priceFloor costs q) := by
  intro items
  induction items with
  | nil =>
    intro prices q hf h
    simpa [applyDiscountsAux] using h
  | cons hd rest ih =>
    intro prices q hf h
    obtain ⟨p, su⟩ := hd
    by_cases hc : su ≤ 0 ∨ alookup prices p = none
    · simp only [applyDiscountsAux]
      rw [if_pos hc]
      exact ih prices q hf h
    · simp only [applyDiscountsAux]
      rw [if_neg hc]
      by_cases hpq : p = q
      · subst hpq
        have hg : agetD prices p 0 = priceFloor costs p := by
          rw [agetD, h]
          rfl
        have hd0 : (0 : ℚ) ≤ D (clampI su) (clampI (agetD sales p 0)) / 100 := by
          have := hD (clampI su) (clampI (agetD sales p 0))
          positivity
        have hle : priceFloor costs p *
            (1 - D (clampI su) (clampI (agetD sales p 0)) / 100) ≤
            priceFloor costs p := by
          have h1 : (1 - D (clampI su) (clampI (agetD sales p 0)) / 100) ≤ 1 := by
            linarith
          calc priceFloor costs p *
              (1 - D (clampI su) (clampI (agetD sales p 0)) / 100)
              ≤ priceFloor costs p * 1 := mul_le_mul_of_nonneg_left h1 hf
            _ = priceFloor costs p := mul_one _
        have hval : qmax (qmul (agetD prices p 0)
            (qsub 1 (qdiv (D (clampI su) (clampI (agetD sales p 0))) (mkRat 100 1))))
            (priceFloor costs p) = priceFloor costs p := by
          rw [qmax_eq, qmul_eq, qsub_eq, qdiv_eq, mkRat_den_one, hg]
          exact max_eq_right hle
        apply ih
        · exact hf
        · rw [hval, alookup_aset_self]
      · apply ih
        · exact hf
        · rw [alookup_aset_ne _ _ _ _ (fun he => hpq he.symm)]
          exact h

/-- `pickIdx` is in range whenever the target sits inside the total mass. -/
theorem pickIdx_lt_length :
    ∀ (ws : List ℚ) (t : ℚ), 0 ≤ t → t < ws.sum → pickIdx ws t < ws.length := by
  intro ws
  induction ws with
  | nil =>
    intro t h0 hs
    simp at hs
    exact absurd (lt_of_le_of_lt h0 hs) (lt_irrefl 0)
  | cons w rest ih =>
    intro t h0 hs
    by_cases hlt : t < w
    · simp [pickIdx, (qlt_iff t w).mpr hlt]
    · have hwle : w ≤ t := le_of_not_lt hlt
      have hq : qlt t w = false := by
        rw [qlt_eq]
        simp [hlt]
      simp only [pickIdx, hq, Bool.false_eq_true, if_false, qsub_eq]
      have h1 : 0 ≤ t - w := by linarith
      have h2 : t - w < rest.sum := by
        simp [List.sum_cons] at hs
        linarith
      have := ih (t - w) h1 h2
      simpa using Nat.succ_lt_succ this

/-- The weight at the chosen index is strictly above the remaining target,
hence strictly positive for a nonnegative target: a zero-weight entry is
never selected. -/
theorem pickIdx_get_pos :
    ∀ (ws : List ℚ) (t : ℚ) (w : ℚ), 0 ≤ t →
      ws[pickIdx ws t]? = some w → 0 < w := by
  intro ws
  induction ws with
  | nil =>
    intro t w _ h
    simp [pickIdx] at h
  | cons w0 rest ih =>
    intro t w h0 h
    by_cases hlt : t < w0
    · simp [pickIdx, (qlt_iff t w0).mpr hlt] at h
      subst h
      exact lt_of_le_of_lt h0 hlt
    · have hq : qlt t w0 = false := by
        rw [qlt_eq]
        simp [hlt]
      simp only [pickIdx, hq, Bool.false_eq_true, if_false, qsub_eq] at h
      have hwle : w0 ≤ t := le_of_not_lt hlt
      exact ih (t - w0) w (by linarith) (by simpa using h)

/-- Membership in `availOf`: exactly the products holding a positively
stocked binding. -/
theorem mem_availOf {g : Grocery} {p : String} :
    p ∈ availOf g ↔ ∃ q, (p, q) ∈ g.stock ∧ 0 < q := by
  constructor
  · intro h
    rcases List.mem_map.mp h with ⟨⟨p', q⟩, hmem, hp⟩
    rcases List.mem_filter.mp hmem with ⟨hin, hq⟩
    subst hp
    exact ⟨q, hin, by simpa using hq⟩
  · intro ⟨q, hin, hq⟩
    exact List.mem_map.mpr ⟨(p, q), List.mem_filter.mpr ⟨hin, by simpa using hq⟩, rfl⟩

/-- Every weight `sell_one_product` builds is nonnegative when the demand
table is (the default for an absent product is `0.01 > 0`). -/
theorem sellWeights_nonneg {g : Grocery}
    (hw : ∀ pw ∈ g.demandWeights, (0 : ℚ) ≤ pw.2) (avail : List String) :
    ∀ x ∈ sellWeightsOf g avail, 0 ≤ x := by
  intro x hx
  rw [sellWeightsOf] at hx
  by_cases hz : qsum (avail.map (fun p => agetD g.demandWeights p (mkRat 1 100))) = 0
  · rw [if_pos hz] at hx
    rw [List.eq_of_mem_replicate hx]
    norm_num
  · rw [if_neg hz] at hx
    rcases List.mem_map.mp hx with ⟨p, _, hp⟩
    subst hp
    rw [agetD]
    cases hl : alookup g.demandWeights p with
    | none =>
      simp [mkRat_lit]
    | some w =>
      simpa using hw (p, w) (mem_of_alookup hl)

/-- The weight list has positive total mass whenever some product is
available (either the real weights, whose sum is then nonzero and
nonnegative, or the all-ones fallback). -/
theorem sellWeights_sum_pos {g : Grocery}
    (hw : ∀ pw ∈ g.demandWeights, (0 : ℚ) ≤ pw.2)
    {avail : List String} (hne : avail ≠ []) :
    0 < (sellWeightsOf g avail).sum := by
  rw [sellWeightsOf]
  by_cases hz : qsum (avail.map (fun p => agetD g.demandWeights p (mkRat 1 100))) = 0
  · rw [if_pos hz, List.sum_replicate, nsmul_eq_mul, mul_one]
    have : 0 < avail.length := List.length_pos.mpr hne
    exact_mod_cast this
  · rw [if_neg hz]
    rw [qsum_eq] at hz
    have hnn : 0 ≤ (avail.map (fun p => agetD g.demandWeights p (mkRat 1 100))).sum := by
      apply List.sum_nonneg
      intro x hx
      rcases List.mem_map.mp hx with ⟨p, _, hp⟩
      subst hp
      rw [agetD]
      cases hl : alookup g.demandWeights p with
      | none =>
        simp [mkRat_lit]
      | some w => simpa using hw (p, w) (mem_of_alookup hl)
    exact lt_of_le_of_ne hnn (Ne.symm hz)

/-- Lengths of the weight vector and the availability list agree. -/
theorem sellWeights_length (g : Grocery) (avail : List String) :
    (sellWeightsOf g avail).length = avail.length := by
  rw [sellWeightsOf]
  by_cases hz : qsum (avail.map (fun p => agetD g.demandWeights p (mkRat 1 100))) = 0
  · rw [if_pos hz, List.length_replicate]
  · rw [if_neg hz, List.length_map]

theorem priceFloor_of_lookup {costs : List (String × ℚ)} {q : String} {c : ℚ}
    (h : alookup costs q = some c) : priceFloor costs q = c * (21/20) := by
  rw [priceFloor, qmul_eq, mkRat_lit, agetD, h]
  norm_num

theorem priceFloor_of_none {costs : List (String × ℚ)} {q : String}
    (h : alookup costs q = none) : priceFloor costs q = 0 := by
  rw [priceFloor, qmul_eq, agetD, h]
  simp

theorem draw_fst_nonneg {γ : List ℚ} (h : ∀ u ∈ γ, (0 : ℚ) ≤ u) :
    0 ≤ (draw γ).1 := by
  cases γ with
  | nil => simp [draw]
  | cons x r => exact h x (by simp [draw])

theorem draw_snd_subset {γ : List ℚ} {u : ℚ} (h : u ∈ (draw γ).2) : u ∈ γ := by
  cases γ with
  | nil => simp [draw] at h
  | cons x r => simp [draw] at h; simp [h]

/-! ### Reachable store states (the public operations of src/grocery.py) -/

/-- Inductive invariant of the store maps, established below for every
reachable state: stock keys are distinct (a Python dict) and quantities
nonnegative; recorded costs are nonnegative; every costed product carries
a price at or above the `cost * 1.05` floor; every priced product has a
recorded cost; the fixed demand table is nonnegative. -/
structure StoreInv (g : Grocery) : Prop where
  nodupStock : (g.stock.map Prod.fst).Nodup
  stockNonneg : ∀ pq ∈ g.stock, (0 : ℤ) ≤ pq.2
  costNonneg : ∀ p c, alookup g.costs p = some c → (0 : ℚ) ≤ c
  priceAboveFloor : ∀ p c, alookup g.costs p = some c →
    ∃ v, alookup g.prices p = some v ∧ c * (21/20) ≤ v
  pricedHasCost : ∀ p v, alookup g.prices p = some v →
    ∃ c, alookup g.costs p = some c
  weightsNonneg : ∀ pw ∈ g.demandWeights, (0 : ℚ) ≤ pw.2

/-- One public operation of the store.  Randomized inputs are quantified
over (a superset of) the ranges the generators produce: `add_stock`
receives units at supplier costs `≥ 0` (`get_price` is a `uniform(1,5)`
draw or the `0.0` default) with markup draws from nonnegative stream
values; `sell_one_product` consumes an arbitrary draw. -/
inductive Step : Grocery → Grocery → Prop where
  | addStock (g : Grocery) (items : List (String × ℚ)) (γ : List ℚ)
      (hc : ∀ pc ∈ items, (0 : ℚ) ≤ pc.2) (hγ : ∀ u ∈ γ, (0 : ℚ) ≤ u) :
      Step g (addStockList g items γ).1
  | discounts (g : Grocery) (D : ℤ → ℤ → ℚ) : Step g (applyDiscounts D g)
  | sell (g : Grocery) (u : ℚ) : Step g (sellOneProduct g u).2
  | reset (g : Grocery) : Step g (resetSales g)

/-- States reachable from a freshly constructed store. -/
inductive Reachable : Grocery → Prop where
  | init : Reachable grocery0
  | step {g g' : Grocery} : Reachable g → Step g g' → Reachable g'

theorem storeInv_init : StoreInv grocery0 := by
  constructor
  · simp [grocery0]
  · intro pq h
    simp [grocery0] at h
  · intro p c h
    simp [grocery0, alookup] at h
  · intro p c h
    simp [grocery0, alookup] at h
  · intro p v h
    simp [grocery0, alookup] at h
  · intro pw h
    simp [grocery0, defaultWeights] at h
    rcases h with h | h | h | h | h <;> subst h <;> norm_num [mkRat_lit]

theorem storeInv_addStockItem {g : Grocery} (inv : StoreInv g)
    (p : String) (c : ℚ) (γ : List ℚ) (hc : (0 : ℚ) ≤ c)
    (hγ : ∀ u ∈ γ, (0 : ℚ) ≤ u) :
    StoreInv (addStockItem g p c γ).1 ∧
      (∀ u ∈ (addStockItem g p c γ).2, (0 : ℚ) ≤ u) := by
  have hstock : ∀ pq ∈ aset g.stock p (agetD g.stock p 0 + 1), (0 : ℤ) ≤ pq.2 := by
    intro pq hpq
    rcases mem_aset hpq with h | h
    · exact inv.stockNonneg pq h
    · rw [h]
      have : (0 : ℤ) ≤ agetD g.stock p 0 := by
        rw [agetD]
        cases hl : alookup g.stock p with
        | none => simp
        | some q => simpa using inv.stockNonneg (p, q) (mem_of_alookup hl)
      simpa using by linarith
  have hnd : ((aset g.stock p (agetD g.stock p 0 + 1)).map Prod.fst).Nodup :=
    nodup_keys_aset inv.nodupStock
  cases hp : alookup g.prices p with
  | some vp =>
    obtain ⟨c₀, hc₀⟩ := inv.pricedHasCost p vp hp
    simp only [addStockItem, hp, hc₀]
    refine ⟨?_, hγ⟩
    exact
      { nodupStock := hnd
        stockNonneg := hstock
        costNonneg := inv.costNonneg
        priceAboveFloor := inv.priceAboveFloor
        pricedHasCost := inv.pricedHasCost
        weightsNonneg := inv.weightsNonneg }
  | none =>
    cases hcost : alookup g.costs p with
    | some c₀ =>
      obtain ⟨v, hv, _⟩ := inv.priceAboveFloor p c₀ hcost
      rw [hv] at hp
      exact absurd hp (by simp)
    | none =>
      simp only [addStockItem, hp, hcost]
      have hu : (0 : ℚ) ≤ (draw γ).1 := draw_fst_nonneg hγ
      have hmarkup : (21 : ℚ)/20 ≤
          qadd (mkRat 6 5) (qmul (qsub (mkRat 3 2) (mkRat 6 5)) (draw γ).1) := by
        rw [qadd_eq, qmul_eq, qsub_eq, mkRat_lit, mkRat_lit]
        have : (0 : ℚ) ≤ ((3 : ℚ)/2 - (6 : ℤ)/5) * (draw γ).1 := by
          apply mul_nonneg _ hu
          norm_num
        push_cast at this ⊢
        linarith
      refine ⟨?_, fun u hu' => hγ u (draw_snd_subset hu')⟩
      refine
        { nodupStock := hnd
          stockNonneg := hstock
          costNonneg := ?_
          priceAboveFloor := ?_
          pricedHasCost := ?_
          weightsNonneg := inv.weightsNonneg }
      · intro q cq hq
        by_cases hqp : q = p
        · subst hqp
          rw [alookup_aset_self] at hq
          rw [← Option.some_inj.mp hq]
          exact hc
        · rw [alookup_aset_ne _ _ _ _ hqp] at hq
          exact inv.costNonneg q cq hq
      · intro q cq hq
        by_cases hqp : q = p
        · subst hqp
          rw [alookup_aset_self] at hq
          have hcq : cq = c := Option.some_inj.mp hq.symm
          subst hcq
          refine ⟨_, alookup_aset_self _ _ _, ?_⟩
          rw [agetD, alookup_aset_self]
          simp only [Option.getD_some]
          rw [qmul_eq]
          calc cq * (21/20) ≤ cq * (qadd (mkRat 6 5)
                (qmul (qsub (mkRat 3 2) (mkRat 6 5)) (draw γ).1)) := by
                apply mul_le_mul_of_nonneg_left hmarkup hc
            _ = _ := rfl
        · rw [alookup_aset_ne _ _ _ _ hqp] at hq
          rw [alookup_aset_ne _ _ _ _ hqp]
          exact inv.priceAboveFloor q cq hq
      · intro q v hq
        by_cases hqp : q = p
        · subst hqp
          exact ⟨c, alookup_aset_self _ _ _⟩
        · rw [alookup_aset_ne _ _ _ _ hqp] at hq
          obtain ⟨cq, hcq⟩ := inv.pricedHasCost q v hq
          exact ⟨cq, by rw [alookup_aset_ne _ _ _ _ hqp]; exact hcq⟩

theorem storeInv_addStockList :
    ∀ (items : List (String × ℚ)) (g : Grocery) (γ : List ℚ),
      StoreInv g → (∀ pc ∈ items, (0 : ℚ) ≤ pc.2) → (∀ u ∈ γ, (0 : ℚ) ≤ u) →
      StoreInv (addStockList g items γ).1 := by
  intro items
  induction items with
  | nil =>
    intro g γ inv _ _
    simpa [addStockList] using inv
  | cons hd rest ih =>
    intro g γ inv hc hγ
    obtain ⟨p, c⟩ := hd
    obtain ⟨inv', hγ'⟩ := storeInv_addStockItem inv p c γ
      (by simpa using hc (p, c) (by simp)) hγ
    simpa [addStockList] using ih _ _ inv'
      (fun pc hpc => hc pc (by simp [hpc])) hγ'

theorem storeInv_applyDiscounts {g : Grocery} (inv : StoreInv g)
    (D : ℤ → ℤ → ℚ) : StoreInv (applyDiscounts D g) := by
  refine
    { nodupStock := inv.nodupStock
      stockNonneg := inv.stockNonneg
      costNonneg := inv.costNonneg
      priceAboveFloor := ?_
      pricedHasCost := ?_
      weightsNonneg := inv.weightsNonneg }
  · intro q c hq
    have hq' : alookup g.costs q = some c := hq
    obtain ⟨v, hv, hvb⟩ := inv.priceAboveFloor q c hq'
    obtain ⟨v', hv', hor⟩ := adAux_some D g.costs g.salesCount g.stock g.prices q v hv
    refine ⟨v', hv', ?_⟩
    rcases hor with h1 | h1
    · rw [h1]; exact hvb
    · rwa [priceFloor_of_lookup hq'] at h1
  · intro q v hq
    cases hl : alookup g.prices q with
    | none =>
      rw [show (applyDiscounts D g).prices =
          applyDiscountsAux D g.costs g.salesCount g.stock g.prices from rfl] at hq
      rw [adAux_none D g.costs g.salesCount g.stock g.prices q hl] at hq
      exact absurd hq (by simp)
    | some v0 => exact inv.pricedHasCost q v0 hl

theorem storeInv_sell {g : Grocery} (inv : StoreInv g) (u : ℚ) :
    StoreInv (sellOneProduct g u).2 := by
  rw [sellOneProduct]
  by_cases hav : availOf g = []
  · simpa [hav] using inv
  · rw [if_neg hav]
    cases hget : (availOf g)[pickIdx (sellWeightsOf g (availOf g))
        (qmul u (qsum (sellWeightsOf g (availOf g))))]? with
    | none => simpa [hget] using inv
    | some p =>
      simp only [hget]
      refine
        { nodupStock := nodup_keys_aset inv.nodupStock
          stockNonneg := ?_
          costNonneg := inv.costNonneg
          priceAboveFloor := inv.priceAboveFloor
          pricedHasCost := inv.pricedHasCost
          weightsNonneg := inv.weightsNonneg }
      intro pq hpq
      rcases mem_aset hpq with h | h
      · exact inv.stockNonneg pq h
      · rw [h]
        have hpavail : p ∈ availOf g := List.getElem?_mem hget
        obtain ⟨q, hqmem, hqpos⟩ := mem_availOf.mp hpavail
        have hlq : alookup g.stock p = some q :=
          alookup_eq_of_mem_nodup inv.nodupStock hqmem
        have : agetD g.stock p 0 = q := by rw [agetD, hlq]; rfl
        rw [this]
        simpa using by linarith

theorem storeInv_reset {g : Grocery} (inv : StoreInv g) :
    StoreInv (resetSales g) :=
  { nodupStock := inv.nodupStock
    stockNonneg := inv.stockNonneg
    costNonneg := inv.costNonneg
    priceAboveFloor := inv.priceAboveFloor
    pricedHasCost := inv.pricedHasCost
    weightsNonneg := inv.weightsNonneg }

/-- The store invariant holds in every reachable state. -/
theorem storeInv_reachable {g : Grocery} (h : Reachable g) : StoreInv g := by
  induction h with
  | init => exact storeInv_init
  | step _ hs ih =>
    cases hs with
    | addStock items γ hc hγ => exact storeInv_addStockList items _ γ ih hc hγ
    | discounts D => exact storeInv_applyDiscounts ih D
    | sell u => exact storeInv_sell ih u
    | reset => exact storeInv_reset ih

/-- A small reachable state used by witnesses: one `add_stock` delivery of
a single unit of "proteins" at supplier cost 2 (markup stream exhausted,
so the initial markup is the lower bound 1.2 and the price is 2.4). -/
def gEx : Grocery := (addStockList grocery0 [("proteins", mkRat 2 1)] []).1

theorem gEx_reachable : Reachable gEx :=
  Reachable.step Reachable.init
    (Step.addStock grocery0 [("proteins", mkRat 2 1)] []
      (by
        intro pc h
        simp at h
        rw [h]
        norm_num [mkRat_lit])
      (by intro u h; simp at h))

/-! ### Claim theorems -/

/-- Claim C3: for every reachable store state, immediately after any
`Grocery.apply_discounts` call every product `p` with a known cost
(`p ∈ costs`) has `prices[p] ≥ costs[p] * 1.05`; and for a product with
unknown cost the floor the call applies (`costs.get(p, 0.0) * 1.05`)
is `0`. -/
theorem discount_floor_after_apply {g : Grocery} (hg : Reachable g)
    (D : ℤ → ℤ → ℚ) :
    (∀ p c, alookup (applyDiscounts D g).costs p = some c →
      ∃ v, alookup (applyDiscounts D g).prices p = some v ∧ c * (21/20) ≤ v) ∧
    (∀ p, alookup g.costs p = none → priceFloor g.costs p = 0) := by
  constructor
  · intro p c hc
    exact (storeInv_reachable
      (Reachable.step hg (Step.discounts g D))).priceAboveFloor p c hc
  · intro p hp
    exact priceFloor_of_none hp

theorem discount_floor_after_apply_witness :
    (∃ v, alookup (applyDiscounts (fun _ _ => mkRat 10 1) gEx).prices
        "proteins" = some v ∧ (mkRat 2 1) * (21/20) ≤ v) ∧
    (alookup gEx.costs "sweets" = none → priceFloor gEx.costs "sweets" = 0) :=
  ⟨(discount_floor_after_apply gEx_reachable (fun _ _ => mkRat 10 1)).1
      "proteins" (mkRat 2 1) (by decide),
   (discount_floor_after_apply gEx_reachable (fun _ _ => mkRat 10 1)).2 "sweets"⟩

/-- Claim C4: in every state reachable by any sequence of the store's
operations from the initial empty-stock state, every product's stock is
nonnegative. -/
theorem stock_nonneg_reachable {g : Grocery} (hg : Reachable g) :
    ∀ p q, alookup g.stock p = some q → (0 : ℤ) ≤ q := by
  intro p q hq
  exact (storeInv_reachable hg).stockNonneg (p, q) (mem_of_alookup hq)

theorem stock_nonneg_reachable_witness :
    alookup gEx.stock "proteins" = some 1 ∧ (0 : ℤ) ≤ 1 :=
  ⟨by decide, stock_nonneg_reachable gEx_reachable "proteins" 1 (by decide)⟩

theorem addProducts_products_length (q : Nat) :
    ∀ (s : Supplier) (γ : List ℚ),
      (addProducts s q γ).1.products.length = s.products.length + q := by
  induction q with
  | zero =>
    intro s γ
    simp [addProducts]
  | succ n ih =>
    intro s γ
    rw [addProducts]
    rw [ih]
    simp
    omega

/-- Claim C5: a supplier that produced exactly `Q` units from empty
inventory supplies exactly `Q` units on request (ending empty, no
InsufficientInventory condition), while a request for `Q + 1` raises the
condition, returns the empty result, and leaves the supplier unchanged. -/
theorem supplier_roundtrip (Q : Nat) (γ : List ℚ) :
    ((supplyProducts (addProducts supplier0 Q γ).1 Q).1.length = Q ∧
     (supplyProducts (addProducts supplier0 Q γ).1 Q).2.1.products = [] ∧
     (supplyProducts (addProducts supplier0 Q γ).1 Q).2.2 = false) ∧
    supplyProducts (addProducts supplier0 Q γ).1 (Q + 1) =
      ([], (addProducts supplier0 Q γ).1, true) := by
  have hlen : (addProducts supplier0 Q γ).1.products.length = Q := by
    rw [addProducts_products_length]
    simp [supplier0]
  refine ⟨⟨?_, ?_, ?_⟩, ?_⟩
  · rw [supplyProducts, if_neg (by omega)]
    simp [hlen]
  · rw [supplyProducts, if_neg (by omega)]
    simp [hlen]
  · rw [supplyProducts, if_neg (by omega)]
  · rw [supplyProducts, if_pos (by omega)]

/-- Claim C6: each day entry appended to the ledger stores
`profit = round(revenue - (cogs + delivery_cost), 2)`, so the stored
fields satisfy the conservation identity exactly up to one unit of the
stored 2-decimal precision (`0.01`). -/
theorem ledger_entry_conservation (k : Nat) (a : Accounts) :
    (mkDailyEntry k a).profit =
      round2 (a.revenue - (a.cogs + a.deliveryCost)) ∧
    |(mkDailyEntry k a).profit - ((mkDailyEntry k a).revenue -
      (mkDailyEntry k a).cogs - (mkDailyEntry k a).deliveryCost)| ≤ 1/100 := by
  have hpr : (mkDailyEntry k a).profit =
      round2 (a.revenue - (a.cogs + a.deliveryCost)) := by
    show round2 (qsub a.revenue (qadd a.cogs a.deliveryCost)) = _
    rw [qsub_eq, qadd_eq]
  refine ⟨hpr, ?_⟩
  show |(mkDailyEntry k a).profit - (round2 a.revenue -
    round2 a.cogs - round2 a.deliveryCost)| ≤ 1/100
  rw [hpr, round2_eq, round2_eq, round2_eq, round2_eq]
  have hsplit : 100 * (a.revenue - (a.cogs + a.deliveryCost)) =
      100 * a.revenue - 100 * a.cogs - 100 * a.deliveryCost := by ring
  rw [hsplit]
  set A := 100 * a.revenue
  set B := 100 * a.cogs
  set F := 100 * a.deliveryCost
  have hub : ((round (A - B - F) : ℤ) : ℚ) - ((round A : ℤ) : ℚ) +
      ((round B : ℤ) : ℚ) + ((round F : ℤ) : ℚ) < 2 := by
    have l1 := round_le_add_half (A - B - F)
    have l2 := lt_round_add_half A
    have l3 := round_le_add_half B
    have l4 := round_le_add_half F
    linarith
  have hlb : (-2 : ℚ) < ((round (A - B - F) : ℤ) : ℚ) - ((round A : ℤ) : ℚ) +
      ((round B : ℤ) : ℚ) + ((round F : ℤ) : ℚ) := by
    have l1 := lt_round_add_half (A - B - F)
    have l2 := round_le_add_half A
    have l3 := lt_round_add_half B
    have l4 := lt_round_add_half F
    linarith
  have hzub : round (A - B - F) - round A + round B + round F ≤ 1 := by
    by_contra hcon
    push_neg at hcon
    have h2 : (2 : ℤ) ≤ round (A - B - F) - round A + round B + round F := hcon
    have : (2 : ℚ) ≤ ((round (A - B - F) : ℤ) : ℚ) - ((round A : ℤ) : ℚ) +
        ((round B : ℤ) : ℚ) + ((round F : ℤ) : ℚ) := by exact_mod_cast h2
    linarith
  have hzlb : (-1 : ℤ) ≤ round (A - B - F) - round A + round B + round F := by
    by_contra hcon
    push_neg at hcon
    have h2 : round (A - B - F) - round A + round B + round F ≤ -2 := by omega
    have : ((round (A - B - F) : ℤ) : ℚ) - ((round A : ℤ) : ℚ) +
        ((round B : ℤ) : ℚ) + ((round F : ℤ) : ℚ) ≤ -2 := by exact_mod_cast h2
    linarith
  have habs : |((round (A - B - F) : ℤ) : ℚ) - ((round A : ℤ) : ℚ) +
      ((round B : ℤ) : ℚ) + ((round F : ℤ) : ℚ)| ≤ 1 := by
    rw [abs_le]
    constructor
    · exact_mod_cast hzlb
    · exact_mod_cast hzub
  have hgoal : ((round (A - B - F) : ℤ) : ℚ)/100 -
      (((round A : ℤ) : ℚ)/100 - ((round B : ℤ) : ℚ)/100 -
       ((round F : ℤ) : ℚ)/100) =
      (((round (A - B - F) : ℤ) : ℚ) - ((round A : ℤ) : ℚ) +
       ((round B : ℤ) : ℚ) + ((round F : ℤ) : ℚ))/100 := by ring
  rw [hgoal, abs_div, abs_of_pos (show (0 : ℚ) < 100 by norm_num)]
  linarith

/-- Claim C8: calling `apply_discounts` twice in succession with no
intervening sales or stock changes (nonnegative discount outputs, as the
fuzzy consequent universe is `[0,30]`, and nonnegative recorded costs):
any price the first call left exactly at its floor `cost * 1.05` is left
unchanged by the second call, and the second call never drives a price
that is at or above its floor below that floor. -/
theorem applyDiscounts_idempotent_at_floor (g : Grocery) (D : ℤ → ℤ → ℚ)
    (hD : ∀ a b, 0 ≤ D a b)
    (hc : ∀ p c, alookup g.costs p = some c → (0 : ℚ) ≤ c) :
    (∀ p, alookup (applyDiscounts D g).prices p = some (priceFloor g.costs p) →
      alookup (applyDiscounts D (applyDiscounts D g)).prices p =
        some (priceFloor g.costs p)) ∧
    (∀ p v1 v2, alookup (applyDiscounts D g).prices p = some v1 →
      priceFloor g.costs p ≤ v1 →
      alookup (applyDiscounts D (applyDiscounts D g)).prices p = some v2 →
      priceFloor g.costs p ≤ v2) := by
  have hfl : ∀ p, (0 : ℚ) ≤ priceFloor g.costs p := by
    intro p
    cases hl : alookup g.costs p with
    | none => rw [priceFloor_of_none hl]
    | some c =>
      rw [priceFloor_of_lookup hl]
      have := hc p c hl
      positivity
  constructor
  · intro p hp
    exact adAux_floor_fix D g.costs g.salesCount hD g.stock
      (applyDiscounts D g).prices p (hfl p) hp
  · intro p v1 v2 h1 hge h2
    obtain ⟨v', hv', hor⟩ := adAux_some D g.costs g.salesCount g.stock
      (applyDiscounts D g).prices p v1 h1
    have h2' : alookup (applyDiscountsAux D g.costs g.salesCount g.stock
        (applyDiscounts D g).prices) p = some v2 := h2
    have hvv : v2 = v' := Option.some_inj.mp (h2'.symm.trans hv')
    rcases hor with h3 | h3
    · rw [hvv, h3]
      exact hge
    · rw [hvv]
      exact h3

/-- A store whose single product's price is driven to its floor by one
discount pass (cost 5, price 1, floor 5.25): C8 witness state. -/
def gW8 : Grocery :=
  { stock := [("proteins", 1)], prices := [("proteins", mkRat 1 1)],
    costs := [("proteins", mkRat 5 1)], salesCount := [],
    demandWeights := defaultWeights }

theorem applyDiscounts_idempotent_at_floor_witness :
    alookup (applyDiscounts (fun _ _ => mkRat 10 1)
      (applyDiscounts (fun _ _ => mkRat 10 1) gW8)).prices "proteins" =
      some (priceFloor gW8.costs "proteins") :=
  (applyDiscounts_idempotent_at_floor gW8 (fun _ _ => mkRat 10 1)
    (fun _ _ => by norm_num [mkRat_lit])
    (by
      intro p c h
      simp [gW8, alookup] at h
      rcases h with ⟨_, hc⟩
      rw [← hc]
      norm_num [mkRat_lit])).1
    "proteins" (by decide)

theorem defaultWeights_nonneg : ∀ pw ∈ defaultWeights, (0 : ℚ) ≤ pw.2 := by
  intro pw h
  simp [defaultWeights] at h
  rcases h with h | h | h | h | h <;> subst h <;> norm_num [mkRat_lit]

/-- Claim C7: `sell_one_product` returns the no-sale result `None` iff no
product has positive stock, and then modifies nothing; otherwise it
returns a product `p` that had positive stock, decrements `stock[p]` by
exactly 1, increments `sales_count[p]` by exactly 1, and leaves every
other product's stock and sales count unchanged.  The hypotheses are the
code's own guarantees: the draw lies in `[0,1)`, the fixed demand table is
nonnegative, and dict keys are distinct. -/
theorem sellOneProduct_spec (g : Grocery) (u : ℚ)
    (hu0 : 0 ≤ u) (hu1 : u < 1)
    (hw : ∀ pw ∈ g.demandWeights, (0 : ℚ) ≤ pw.2)
    (hnd : (g.stock.map Prod.fst).Nodup) :
    ((sellOneProduct g u).1 = none ↔ ∀ pq ∈ g.stock, pq.2 ≤ 0) ∧
    ((sellOneProduct g u).1 = none → (sellOneProduct g u).2 = g) ∧
    (∀ p, (sellOneProduct g u).1 = some p →
      ∃ q, alookup g.stock p = some q ∧ 0 < q ∧
        alookup (sellOneProduct g u).2.stock p = some (q - 1) ∧
        agetD (sellOneProduct g u).2.salesCount p 0 =
          agetD g.salesCount p 0 + 1 ∧
        ∀ p', p' ≠ p →
          alookup (sellOneProduct g u).2.stock p' = alookup g.stock p' ∧
          alookup (sellOneProduct g u).2.salesCount p' =
            alookup g.salesCount p') := by
  by_cases hav : availOf g = []
  · have hres : sellOneProduct g u = (none, g) := by
      rw [sellOneProduct, if_pos hav]
    rw [hres]
    have hall : ∀ pq ∈ g.stock, pq.2 ≤ 0 := by
      intro pq hpq
      by_contra hcon
      push_neg at hcon
      have hmem : pq.1 ∈ availOf g :=
        mem_availOf.mpr ⟨pq.2, by simpa using hpq, hcon⟩
      rw [hav] at hmem
      simp at hmem
    exact ⟨⟨fun _ => hall, fun _ => rfl⟩, fun _ => rfl, fun p hp => by simp at hp⟩
  · have hsumpos := sellWeights_sum_pos hw hav
    have ht0 : (0 : ℚ) ≤ qmul u (qsum (sellWeightsOf g (availOf g))) := by
      rw [qmul_eq, qsum_eq]
      exact mul_nonneg hu0 hsumpos.le
    have htlt : qmul u (qsum (sellWeightsOf g (availOf g))) <
        (sellWeightsOf g (availOf g)).sum := by
      rw [qmul_eq, qsum_eq]
      exact mul_lt_of_lt_one_left hsumpos hu1
    have hidxlt := pickIdx_lt_length _ _ ht0 htlt
    rw [sellWeights_length] at hidxlt
    obtain ⟨p, hget⟩ : ∃ p, (availOf g)[pickIdx (sellWeightsOf g (availOf g))
        (qmul u (qsum (sellWeightsOf g (availOf g))))]? = some p := by
      rw [List.getElem?_eq_getElem hidxlt]
      exact ⟨_, rfl⟩
    have hres : sellOneProduct g u = (some p, { g with
        stock := aset g.stock p (agetD g.stock p 0 - 1),
        salesCount := aset g.salesCount p (agetD g.salesCount p 0 + 1) }) := by
      rw [sellOneProduct, if_neg hav, hget]
    have hpavail : p ∈ availOf g := List.getElem?_mem hget
    obtain ⟨q, hqmem, hqpos⟩ := mem_availOf.mp hpavail
    have hlq : alookup g.stock p = some q := alookup_eq_of_mem_nodup hnd hqmem
    rw [hres]
    refine ⟨?_, ?_, ?_⟩
    · constructor
      · intro h
        simp at h
      · intro hall
        exact absurd (hall (p, q) hqmem) (by simpa using hqpos)
    · intro h
      exact absurd h (by simp)
    · intro p' hp'
      have hpp : p = p' := by simpa using hp'
      subst hpp
      have hgq : agetD g.stock p 0 = q := by
        rw [agetD, hlq]
        rfl
      refine ⟨q, hlq, hqpos, ?_, ?_, ?_⟩
      · show alookup (aset g.stock p (agetD g.stock p 0 - 1)) p = some (q - 1)
        rw [alookup_aset_self, hgq]
      · show agetD (aset g.salesCount p (agetD g.salesCount p 0 + 1)) p 0 =
          agetD g.salesCount p 0 + 1
        rw [agetD, alookup_aset_self]
        rfl
      · intro p'' hne
        exact ⟨alookup_aset_ne _ _ _ _ hne, alookup_aset_ne _ _ _ _ hne⟩

theorem sellOneProduct_spec_witness :
    ((sellOneProduct gEx 0).1 = none ↔ ∀ pq ∈ gEx.stock, pq.2 ≤ 0) :=
  (sellOneProduct_spec gEx 0 (by norm_num) (by norm_num)
    (by
      show ∀ pw ∈ defaultWeights, (0 : ℚ) ≤ pw.2
      exact defaultWeights_nonneg)
    (by decide)).1

/-- Variant of `pickIdx_get_pos` taking the index through an equation, for
use after `set`. -/
theorem pickIdx_get_pos_of_eq (ws : List ℚ) (t : ℚ) (i : Nat) (w : ℚ)
    (hi : i = pickIdx ws t) (h0 : 0 ≤ t) (hw : ws[i]? = some w) : 0 < w := by
  subst hi
  exact pickIdx_get_pos ws t w h0 hw

/-- Claim C9: if the demand table gives product `b` weight `0.0` and
product `a` a positive weight, both with positive stock (table otherwise
nonnegative, draw in `[0,1)`), then `sell_one_product` never returns `b`. -/
theorem zero_weight_never_selected (g : Grocery) (u : ℚ) (a b : String)
    (hu0 : 0 ≤ u)
    (hw : ∀ pw ∈ g.demandWeights, (0 : ℚ) ≤ pw.2)
    (hb : alookup g.demandWeights b = some 0)
    (ha : ∃ wa, alookup g.demandWeights a = some wa ∧ 0 < wa)
    (hsa : ∃ qa, alookup g.stock a = some qa ∧ 0 < qa)
    (hsb : ∃ qb, alookup g.stock b = some qb ∧ 0 < qb) :
    (sellOneProduct g u).1 ≠ some b := by
  intro hres
  obtain ⟨qa, hqa, hqa0⟩ := hsa
  obtain ⟨wa, hwa, hwa0⟩ := ha
  have hamem : a ∈ availOf g := mem_availOf.mpr ⟨qa, mem_of_alookup hqa, hqa0⟩
  have hav : availOf g ≠ [] := by
    intro hc
    rw [hc] at hamem
    simp at hamem
  have hterm_nonneg : ∀ x ∈ (availOf g).map
      (fun p => agetD g.demandWeights p (mkRat 1 100)), (0 : ℚ) ≤ x := by
    intro x hx
    rcases List.mem_map.mp hx with ⟨p, _, hp⟩
    subst hp
    rw [agetD]
    cases hl : alookup g.demandWeights p with
    | none => simp [mkRat_lit]
    | some w => simpa using hw (p, w) (mem_of_alookup hl)
  have hfa : agetD g.demandWeights a (mkRat 1 100) = wa := by
    rw [agetD, hwa]
    rfl
  have hsumpos : 0 < ((availOf g).map
      (fun p => agetD g.demandWeights p (mkRat 1 100))).sum := by
    apply lt_of_lt_of_le hwa0
    rw [← hfa]
    exact List.single_le_sum hterm_nonneg _ (List.mem_map.mpr ⟨a, hamem, rfl⟩)
  have hnofb : qsum ((availOf g).map
      (fun p => agetD g.demandWeights p (mkRat 1 100))) ≠ 0 := by
    rw [qsum_eq]
    exact ne_of_gt hsumpos
  have hmapws : sellWeightsOf g (availOf g) = (availOf g).map
      (fun p => agetD g.demandWeights p (mkRat 1 100)) := by
    simp only [sellWeightsOf]
    rw [if_neg hnofb]
  have hsumws : 0 < (sellWeightsOf g (availOf g)).sum := by
    rw [hmapws]
    exact hsumpos
  have ht0 : (0 : ℚ) ≤ qmul u (qsum (sellWeightsOf g (availOf g))) := by
    rw [qmul_eq, qsum_eq]
    exact mul_nonneg hu0 hsumws.le
  rw [sellOneProduct, if_neg hav] at hres
  set ws := sellWeightsOf g (availOf g) with hwsdef
  set T := qmul u (qsum ws) with hTdef
  set idx := pickIdx ws T with hidxdef
  cases hget : (availOf g)[idx]? with
  | none => rw [hget] at hres; simp at hres
  | some p =>
    rw [hget] at hres
    simp at hres
    subst hres
    have hidxw : ws[idx]? = some (agetD g.demandWeights p (mkRat 1 100)) := by
      rw [hmapws, List.getElem?_map, hget]
      rfl
    have hpos := pickIdx_get_pos_of_eq ws T idx _ hidxdef ht0 hidxw
    have hzero : agetD g.demandWeights p (mkRat 1 100) = 0 := by
      rw [agetD, hb]
      rfl
    rw [hzero] at hpos
    exact lt_irrefl 0 hpos

/-- C9 witness state: weight table `{A: 1, B: 0}`, both in stock. -/
def gW9 : Grocery :=
  { stock := [("A", 3), ("B", 2)], prices := [], costs := [],
    salesCount := [], demandWeights := [("A", mkRat 1 1), ("B", 0)] }

theorem zero_weight_never_selected_witness :
    (sellOneProduct gW9 (mkRat 1 2)).1 ≠ some "B" :=
  zero_weight_never_selected gW9 (mkRat 1 2) "A" "B"
    (by norm_num [mkRat_lit])
    (by
      intro pw h
      simp [gW9] at h
      rcases h with h | h <;> subst h <;> norm_num [mkRat_lit])
    (by decide)
    ⟨mkRat 1 1, by decide, by norm_num [mkRat_lit]⟩
    ⟨3, by decide, by norm_num⟩
    ⟨2, by decide, by norm_num⟩

/-- Claim C10: `Grocery.apply_discounts` mutates only the price map —
stock, costs, sales counters and the demand-weight table are untouched. -/
theorem applyDiscounts_frame (D : ℤ → ℤ → ℚ) (g : Grocery) :
    (applyDiscounts D g).stock = g.stock ∧
    (applyDiscounts D g).costs = g.costs ∧
    (applyDiscounts D g).salesCount = g.salesCount ∧
    (applyDiscounts D g).demandWeights = g.demandWeights :=
  ⟨rfl, rfl, rfl, rfl⟩

/-! ### Concrete runs exhibiting the seeding and scheduling defects -/

/-- Stand-in discount engine (constant 10%).  The event ordering, the
trace and the COGS column below do not depend on the engine's values. -/
def Dfix : ℤ → ℤ → ℚ := fun _ _ => mkRat 10 1

/-- The seeded stream of `random.Random(seed)`: identical for two runs
constructed with the same seed. -/
def sigma0 : List ℚ := List.replicate 40 0

/-- Global `random`-module state at the start of the first run. -/
def gpy0 : List ℚ := List.replicate 21 0 ++ List.replicate 25 (mkRat 1 2)

/-- Global numpy state at the start of the first run. -/
def gnp0 : List ℚ := List.replicate 12 0

/-- Claim C2 (code bug): `run_simulation` schedules every `run_day`
process before `env.run()`, so in a 2-day run both days' restock and
discount phases execute at simulated time 0, in day order, before ANY
customer of day 1 is served; the two days' customer phases then
interleave sale by sale, and day 1's ledger append and counter reset
happen only after day 2's restock, discounts and sales — refuting the
claimed strict day sequencing.  This is the full observable trace of the
embedded 2-day run. -/
theorem run_days_interleave :
    (runSimulation Dfix 2 5 [supplier0] sigma0 gpy0 gnp0 60).trace =
      [Obs.restock 1, Obs.discount 1, Obs.restock 2, Obs.discount 2,
       Obs.sale 1 (some "proteins"), Obs.sale 2 (some "proteins"),
       Obs.sale 1 (some "proteins"), Obs.sale 2 (some "proteins"),
       Obs.sale 1 (some "proteins"), Obs.sale 2 (some "fruits"),
       Obs.sale 1 (some "fruits"), Obs.sale 2 (some "fruits"),
       Obs.sale 1 (some "fruits"), Obs.sale 2 (some "fruits"),
       Obs.sale 1 none, Obs.sale 2 none, Obs.sale 1 none, Obs.sale 2 none,
       Obs.sale 1 none, Obs.sale 2 none,
       Obs.append 1, Obs.append 2, Obs.reset 1, Obs.reset 2] := by
  decide

/-- Claim C1 (code bug): two identically constructed 1-day simulations,
run one after the other with the SAME seeded stream (same seed), produce
different ledgers: `sell_one_product` draws from the global numpy
generator and restocking draws from the global `random` module — neither
is seeded by `run_simulation` — so the second run continues the global
streams where the first run left them and records different costs. -/
theorem ledger_not_seed_reproducible :
    (runSimulation Dfix 1 5 [supplier0] sigma0 gpy0 gnp0 100).ledger ≠
    (runSimulation Dfix 1 5 [supplier0] sigma0
      (runSimulation Dfix 1 5 [supplier0] sigma0 gpy0 gnp0 100).gpy
      (runSimulation Dfix 1 5 [supplier0] sigma0 gpy0 gnp0 100).gnp
      100).ledger := by
  decide

end GrocerySim
